import Mathlib

/-!
Verification of the dependency-resolver program (`src/main.py`).

The program's core consists of two algorithms:
* `build_dependency_graph` (main.py lines 121-160): an iterative,
  depth-bounded traversal that builds an adjacency mapping by repeated
  manifest lookups;
* `get_installation_order` (main.py lines 191-216): an explicit-stack
  post-order traversal producing an installation order.

This file gives a shallow embedding of those functions (plus the test-mode
fixture parser `parse_test_graph`, lines 97-112, and the test-mode slice of
`main`, lines 219-276) and proves / refutes the frozen claims about them.

Python dictionaries (string keys, insertion-ordered) are embedded as
association lists `List (String × List String)`; Python sets of strings as
`List String` with membership-checked insertion; the fetch capability
(which may raise) as `String → Option (List String)` with `none` for
failure.  The builder loop is defined by well-founded recursion on an
ordinal measure (the loop terminates because expansion is depth-bounded);
the resolver loop is defined on explicit fuel, and a theorem shows the
chosen fuel always suffices.
-/

/-- A dependency graph: a Python dict from package name to its ordered,
deduplicated list of direct dependencies, embedded as an insertion-ordered
association list. -/
abbrev GraphT := List (String × List String)

/-- Dict lookup: `g[n]` if present (first matching key). -/
def lookupG : GraphT → String → Option (List String)
  | [], _ => none
  | (k, v) :: rest, n => if k = n then some v else lookupG rest n

/-- `if current not in graph: graph[current] = []` (main.py lines 140-141):
insert the key with an empty list at the end if absent. -/
def ensureKey (g : GraphT) (n : String) : GraphT :=
  if (lookupG g n).isSome then g else g ++ [(n, [])]

/-- Overwrite the value stored at an existing key in place (used to write
back the per-node dependency list accumulated by the inner loop); appends
the binding if the key is absent. -/
def setKey : GraphT → String → List String → GraphT
  | [], n, v => [(n, v)]
  | (k, w) :: rest, n, v => if k = n then (n, v) :: rest else (k, w) :: setKey rest n v

/-- `graph.get(node, [])` (main.py line 206). -/
def depsOf (g : GraphT) (n : String) : List String :=
  (lookupG g n).getD []

/-- `get_dependencies_test_mode` (main.py lines 115-118): look `package` up
in the preloaded fixture graph; `none` models the `ValueError` raised when
it is absent. -/
def get_dependencies_test_mode (graph : GraphT) (package : String) : Option (List String) :=
  lookupG graph package

/-- The observable outcome of one call to `build_dependency_graph`:
the returned adjacency mapping, the final `visited` set (identifiers ever
pushed as dependencies, main.py lines 156-158), the sequence of identifiers
for which the manifest source was invoked (one entry per execution of the
`try` block at lines 143-147), and the identifiers for which a fetch
failure warning was printed (line 149). -/
structure BuildResult where
  graph : GraphT
  visited : List String
  fetchLog : List String
  warnings : List String
deriving DecidableEq

/-- One step of the `for dep in deps` loop of main.py lines 152-158, acting
on the state (current node's dependency list, visited set, work stack):
append `dep` to the current list if not already present; if `dep` is not
visited, mark it visited and push `(dep, depth+1)`. -/
def depStep (depth1 : Nat) (st : List String × List String × List (String × Nat)) (dep : String) :
    List String × List String × List (String × Nat) :=
  let cur1 := if dep ∈ st.1 then st.1 else st.1 ++ [dep]
  if dep ∈ st.2.1 then (cur1, st.2.1, st.2.2) else (cur1, dep :: st.2.1, (dep, depth1) :: st.2.2)

/-- Termination measure for the builder loop: the ordinal sum, over the
stack, of `ω ^ (maxDepth - depth)`.  Expanding a node replaces one summand
by finitely many strictly smaller ones. -/
noncomputable def stackM (maxDepth : Nat) (stack : List (String × Nat)) : Ordinal.{0} :=
  stack.foldr (fun e acc => acc + Ordinal.omega0 ^ ((maxDepth - e.2 : Nat) : Ordinal)) 0

theorem stackM_cons (maxDepth : Nat) (e : String × Nat) (s : List (String × Nat)) :
    stackM maxDepth (e :: s) = stackM maxDepth s + Ordinal.omega0 ^ ((maxDepth - e.2 : Nat) : Ordinal) := rfl

theorem stackM_tail_lt (maxDepth : Nat) (e : String × Nat) (s : List (String × Nat)) :
    stackM maxDepth s < stackM maxDepth (e :: s) := by
  rw [stackM_cons]
  exact lt_add_of_pos_right _ (Ordinal.opow_pos _ Ordinal.omega0_pos)

theorem depStep_stk (depth1 : Nat) (cur vis : List String) (stk : List (String × Nat)) (dep : String) :
    (depStep depth1 (cur, vis, stk) dep).2.2 = if dep ∈ vis then stk else (dep, depth1) :: stk := by
  unfold depStep
  by_cases h : dep ∈ vis <;> simp [h]

theorem opow_nat_mul_lt (e n : Nat) :
    (Ordinal.omega0 ^ (e : Ordinal)) * n < Ordinal.omega0 ^ ((e + 1 : Nat) : Ordinal) := by
  have h : ((e + 1 : Nat) : Ordinal) = (e : Ordinal) + 1 := by push_cast; rfl
  rw [h, Ordinal.add_one_eq_succ, Ordinal.opow_succ]
  exact Ordinal.mul_lt_mul_of_pos_left (Ordinal.nat_lt_omega0 n) (Ordinal.opow_pos _ Ordinal.omega0_pos)

theorem foldl_stackM_le (maxDepth depth1 : Nat) (deps : List String) :
    ∀ (cur vis : List String) (stk : List (String × Nat)),
    stackM maxDepth (deps.foldl (depStep depth1) (cur, vis, stk)).2.2 ≤
      stackM maxDepth stk + (Ordinal.omega0 ^ ((maxDepth - depth1 : Nat) : Ordinal)) * deps.length := by
  induction deps with
  | nil => intro cur vis stk; simp
  | cons d ds ih =>
    intro cur vis stk
    simp only [List.foldl_cons, List.length_cons]
    have step : stackM maxDepth ((depStep depth1 (cur, vis, stk) d)).2.2 ≤
        stackM maxDepth stk + Ordinal.omega0 ^ ((maxDepth - depth1 : Nat) : Ordinal) := by
      rw [depStep_stk]
      by_cases h : d ∈ vis
      · simp only [if_pos h]
        exact le_add_of_nonneg_right (Ordinal.zero_le _)
      · simp only [if_neg h]
        exact le_of_eq (stackM_cons _ _ _)
    have key : Ordinal.omega0 ^ ((maxDepth - depth1 : Nat) : Ordinal) +
        (Ordinal.omega0 ^ ((maxDepth - depth1 : Nat) : Ordinal)) * (ds.length : Ordinal) =
        (Ordinal.omega0 ^ ((maxDepth - depth1 : Nat) : Ordinal)) * ((ds.length + 1 : Nat) : Ordinal) := by
      have h1 : ((ds.length + 1 : Nat) : Ordinal) = 1 + (ds.length : Ordinal) := by
        rw [Nat.add_comm]; push_cast; rfl
      rw [h1, mul_add, mul_one]
    calc stackM maxDepth ((ds.foldl (depStep depth1) (depStep depth1 (cur, vis, stk) d))).2.2
        ≤ stackM maxDepth ((depStep depth1 (cur, vis, stk) d)).2.2 +
            (Ordinal.omega0 ^ ((maxDepth - depth1 : Nat) : Ordinal)) * ds.length := by
          obtain ⟨a, b, c⟩ := depStep depth1 (cur, vis, stk) d
          exact ih a b c
      _ ≤ (stackM maxDepth stk + Ordinal.omega0 ^ ((maxDepth - depth1 : Nat) : Ordinal)) +
            (Ordinal.omega0 ^ ((maxDepth - depth1 : Nat) : Ordinal)) * ds.length :=
          add_le_add_right step _
      _ = stackM maxDepth stk +
            (Ordinal.omega0 ^ ((maxDepth - depth1 : Nat) : Ordinal)) * ((ds.length + 1 : Nat) : Ordinal) := by
          rw [add_assoc, key]

theorem expand_lt (maxDepth depth : Nat) (hd : depth < maxDepth) (deps : List String)
    (cur vis : List String) (stk : List (String × Nat)) (e : String × Nat) (he : e.2 = depth) :
    stackM maxDepth (deps.foldl (depStep (depth + 1)) (cur, vis, stk)).2.2 <
      stackM maxDepth (e :: stk) := by
  have h1 := foldl_stackM_le maxDepth (depth + 1) deps cur vis stk
  have h2 : (Ordinal.omega0 ^ ((maxDepth - (depth + 1) : Nat) : Ordinal)) * deps.length <
      Ordinal.omega0 ^ ((maxDepth - depth : Nat) : Ordinal) := by
    have h3 : (maxDepth - depth : Nat) = (maxDepth - (depth + 1) : Nat) + 1 := by omega
    rw [h3]
    exact opow_nat_mul_lt _ _
  calc stackM maxDepth (deps.foldl (depStep (depth + 1)) (cur, vis, stk)).2.2
      ≤ stackM maxDepth stk + (Ordinal.omega0 ^ ((maxDepth - (depth + 1) : Nat) : Ordinal)) * deps.length := h1
    _ < stackM maxDepth stk + Ordinal.omega0 ^ ((maxDepth - depth : Nat) : Ordinal) :=
        (add_lt_add_iff_left _).mpr h2
    _ = stackM maxDepth (e :: stk) := by rw [stackM_cons, he]

/-- The manifest-source consultation of main.py lines 144-147: the fixture
lookup when a test graph was supplied, the fetch capability otherwise. -/
def sourceFetch (fetch : String → Option (List String)) (testGraph : Option GraphT)
    (current : String) : Option (List String) :=
  match testGraph with
  | some tg => get_dependencies_test_mode tg current
  | none => fetch current

/-- The `while stack` loop of `build_dependency_graph` (main.py lines
134-158).  Each iteration pops `(current, depth)`; a node popped at
`depth ≥ max_depth` is skipped; otherwise the node's key is ensured, the
manifest source is consulted (`none` models a raised exception, which is
caught, logged as a warning, and replaced by an empty list), and every
returned dependency is processed by `depStep`. -/
def buildLoop (fetch : String → Option (List String)) (testGraph : Option GraphT) (maxDepth : Nat) :
    List (String × Nat) → List String → GraphT → List String → List String → BuildResult
  | [], visited, graph, log, warns => ⟨graph, visited, log, warns⟩
  | (current, depth) :: rest, visited, graph, log, warns =>
    if maxDepth ≤ depth then buildLoop fetch testGraph maxDepth rest visited graph log warns
    else
      let graph1 := ensureKey graph current
      match sourceFetch fetch testGraph current with
      | some deps =>
        let st := deps.foldl (depStep (depth + 1)) ((lookupG graph1 current).getD [], visited, rest)
        buildLoop fetch testGraph maxDepth st.2.2 st.2.1 (setKey graph1 current st.1)
          (log ++ [current]) warns
      | none =>
        buildLoop fetch testGraph maxDepth rest visited graph1
          (log ++ [current]) (warns ++ [current])
  termination_by stack => stackM maxDepth stack
  decreasing_by
  all_goals first
    | exact stackM_tail_lt maxDepth _ _
    | exact expand_lt maxDepth depth (by omega) _ _ _ _ _ rfl

/-- `build_dependency_graph` (main.py lines 121-160): if `max_depth == 0`
return `{root: []}` at once; otherwise run the work-stack loop seeded with
`(root, 0)`, an empty visited set and an empty graph. -/
def build_dependency_graph (root_package : String) (max_depth : Nat)
    (fetcher_func : String → Option (List String)) (test_graph : Option GraphT) : BuildResult :=
  if max_depth = 0 then ⟨[(root_package, [])], [], [], []⟩
  else buildLoop fetcher_func test_graph max_depth [(root_package, 0)] [] [] [] []

/-- The `while stack` loop of `get_installation_order` (main.py lines
197-214), on explicit fuel (`none` = fuel exhausted; `orderFuel` below is
proven sufficient).  Each iteration peeks the top of the stack: a processed
node is popped and discarded; otherwise the node is marked visited and its
not-yet-visited dependencies are pushed (the source iterates
`reversed(graph.get(node, []))` and appends each to the end of the Python
list, so in this head-is-top embedding the pushed block keeps the original
dependency order); if none needed pushing the node is marked processed,
popped, and appended to the output. -/
def orderLoop (g : GraphT) : Nat → List String → List String → List String → List String →
    Option (List String)
  | 0, _, _, _, _ => none
  | _ + 1, [], _, _, ord => some ord
  | fuel + 1, node :: rest, visited, processed, ord =>
    if node ∈ processed then orderLoop g fuel rest visited processed ord
    else
      let visited1 := visited.insert node
      let pushes := (depsOf g node).filter (fun d => d ∉ visited1)
      if pushes.isEmpty then
        orderLoop g fuel rest visited1 (processed.insert node) (ord ++ [node])
      else
        orderLoop g fuel (pushes ++ node :: rest) visited1 processed ord

/-- All identifiers mentioned by the graph: its keys and every listed
dependency. -/
def nodesOf (g : GraphT) : List String :=
  g.foldr (fun p acc => p.1 :: p.2 ++ acc) []

/-- The longest dependency list in the graph. -/
def maxDeps (g : GraphT) : Nat :=
  g.foldr (fun p m => max p.2.length m) 0

/-- Fuel that provably suffices for `orderLoop` (see
`orderLoop_fuel_sufficient`): each iteration either visits a new member of
`root :: nodesOf g` or shrinks the stack, and one visit grows the stack by
at most `maxDeps g`. -/
def orderFuel (g : GraphT) (root : String) : Nat :=
  ((root :: nodesOf g).dedup.length) * (maxDeps g + 1) + 2

/-- `get_installation_order` (main.py lines 191-216): run the resolver loop
with visited/processed empty, the stack seeded with `[root]`, and enough
fuel.  `getD []` is never taken (`orderLoop` with this fuel always returns
`some`, see `orderLoop_fuel_sufficient`). -/
def get_installation_order (graph : GraphT) (root : String) : List String :=
  (orderLoop graph (orderFuel graph root) [root] [] [] []).getD []

/-- Python `str.isupper()`: at least one cased character, and no cased
character is lowercase (restricted to the ASCII casing of Lean `Char`). -/
def pyIsUpper (s : String) : Bool :=
  s.data.any (fun c => c.isUpper || c.isLower) && s.data.all (fun c => !(c.isLower))

/-- Python `str.isalpha()`: non-empty and every character alphabetic. -/
def pyIsAlpha (s : String) : Bool :=
  !(s.data.isEmpty) && s.data.all (fun c => c.isAlpha)

/-- Python `str.strip()` with no argument: remove leading and trailing
whitespace (defined structurally over the character list so that concrete
fixtures evaluate inside the kernel). -/
def pyStrip (s : String) : String :=
  String.mk (((s.data.dropWhile Char.isWhitespace).reverse.dropWhile Char.isWhitespace).reverse)

/-- Python `line.startswith('#')`. -/
def pyStartsWithHash (s : String) : Bool :=
  match s.data with
  | [] => false
  | c :: _ => c = '#'

/-- Python `str.split()` with no argument: split on whitespace runs,
discarding empty tokens. -/
def pySplitWs (s : String) : List String :=
  ((List.splitOnP (fun c => c.isWhitespace) s.data).filter (fun t => !(t.isEmpty))).map String.mk

/-- Python `line.split(':', 1)` given that `':' in line`: the part before
the first colon and everything after it; `none` when the line has no
colon (which is exactly the `':' not in line` check of main.py line
104). -/
def splitFirstColon (s : String) : Option (String × String) :=
  match s.data.dropWhile (fun c => !(c = ':')) with
  | [] => none
  | _ :: after => some (String.mk (s.data.takeWhile (fun c => !(c = ':'))), String.mk after)

/-- Python dict assignment `graph[pkg] = deps`: overwrite in place if the
key exists, otherwise append the binding. -/
def dictSet (g : GraphT) (k : String) (v : List String) : GraphT :=
  if (lookupG g k).isSome then setKey g k v else g ++ [(k, v)]

/-- The acceptance test applied to the left-hand package name of a fixture
line (main.py line 108): `pkg` nonempty, `pkg.isupper()` and
`pkg.isalpha()`. -/
def validTestName (s : String) : Bool :=
  !(s = "") && pyIsUpper s && pyIsAlpha s

/-- `parse_test_graph` (main.py lines 97-112), over the list of lines of
the fixture file: strip each line; skip blank and `#` lines; a line without
a colon or whose package name fails `validTestName` is a fatal
`ValueError` (`Except.error`); otherwise record
`graph[pkg] = deps_part.split()`. -/
def parse_test_graph : List String → GraphT → Except String GraphT
  | [], graph => .ok graph
  | line :: rest, graph =>
    let l := pyStrip line
    if l = "" || pyStartsWithHash l then parse_test_graph rest graph
    else
      match splitFirstColon l with
      | none => .error ("Invalid line in test graph: " ++ l)
      | some (p, depsPart) =>
        let pkg := pyStrip p
        if validTestName pkg then parse_test_graph rest (dictSet graph pkg (pySplitWs depsPart))
        else .error ("Package name in test mode must be uppercase letters: " ++ pkg)

/-- The configuration echo printed by `main` (main.py lines 234-238) before
anything else, one list entry per printed line. -/
def configEcho (package repo mode : String) (maxDepth : Nat) : List String :=
  ["Configuration:",
   "  package = " ++ package,
   "  repo = " ++ repo,
   "  mode = " ++ mode,
   "  max_depth = " ++ toString maxDepth]

/-- The numbered installation-order listing (main.py lines 252-254). -/
def orderLines (order : List String) : List String :=
  (order.enumFrom 1).map (fun p => "  " ++ toString p.1 ++ ". " ++ p.2)

/-- The dependency-graph listing (main.py lines 264-269). -/
def graphLines (g : GraphT) : List String :=
  g.map (fun p =>
    if p.2.isEmpty then "  " ++ p.1 ++ " -> (no dependencies)"
    else "  " ++ p.1 ++ " -> " ++ String.intercalate ", " p.2)

/-- The test-mode branch of `main` (main.py lines 234-273) after successful
argument parsing and validation, with the filesystem modeled by
`repoIsFile` (the `os.path.isfile` check of line 241) and `fileLines` (the
fixture file's lines).  Returns (exit status, stdout lines, stderr lines).
The configuration echo is printed first; a `ValueError` (non-file repo or
fixture-load failure) is caught at line 271 and reported as
`Error: <message>` on stderr with exit status 1; on success the
installation order and the graph listing are printed and the exit status
is 0. -/
def mainTest (package repo : String) (maxDepth : Nat) (repoIsFile : Bool)
    (fileLines : List String) : Nat × List String × List String :=
  let out0 := configEcho package repo "test" maxDepth
  if !repoIsFile then (1, out0, ["Error: --repo must be a file in test mode"])
  else
    match parse_test_graph fileLines [] with
    | .error e => (1, out0, ["Error: " ++ e])
    | .ok tg =>
      let res := build_dependency_graph package maxDepth (fun _ => none) (some tg)
      let order := get_installation_order res.graph package
      (0,
       out0 ++ ["", "Installation order (dependencies first):"] ++ orderLines order
            ++ ["", "Dependency graph (up to max depth):"] ++ graphLines res.graph,
       res.warnings.map (fun w => "Warning: failed to fetch dependencies for " ++ w))

/-- `y` is reachable from `x` by following zero or more dependency edges of
the graph (an edge goes from a key to each entry of its dependency
list). -/
inductive Reaches (g : GraphT) : String → String → Prop
  | refl (x : String) : Reaches g x x
  | step {x d y : String} : d ∈ depsOf g x → Reaches g d y → Reaches g x y

/-- `y` is reachable from `x` by one or more dependency edges. -/
def ReachesPlus (g : GraphT) (x y : String) : Prop :=
  ∃ d ∈ depsOf g x, Reaches g d y

theorem Reaches.trans {g : GraphT} {x y z : String}
    (hxy : Reaches g x y) (hyz : Reaches g y z) : Reaches g x z := by
  induction hxy with
  | refl => exact hyz
  | step hd _ ih => exact Reaches.step hd (ih hyz)

theorem reaches_of_edge {g : GraphT} {x d : String} (h : d ∈ depsOf g x) : Reaches g x d :=
  Reaches.step h (Reaches.refl d)

/-- A membership-closed list containing `r` contains everything reachable
from `r`; the workhorse for checking reachability and acyclicity at
concrete inputs. -/
theorem reaches_mem_of_closed {g : GraphT} {c : List String}
    (hc : ∀ a ∈ c, ∀ d ∈ depsOf g a, d ∈ c) {r x : String}
    (hr : r ∈ c) (h : Reaches g r x) : x ∈ c := by
  induction h with
  | refl => exact hr
  | step hd _ ih => exact ih (hc _ hr _ hd)

theorem lookupG_append (g1 g2 : GraphT) (x : String) :
    lookupG (g1 ++ g2) x = ((lookupG g1 x).orElse (fun _ => lookupG g2 x)) := by
  induction g1 with
  | nil => simp [lookupG]
  | cons p rest ih =>
    obtain ⟨k, v⟩ := p
    by_cases h : k = x <;> simp [lookupG, h, ih]

theorem lookupG_single (n x : String) (v : List String) :
    lookupG [(n, v)] x = if n = x then some v else none := by
  simp [lookupG]

theorem ensureKey_lookup (g : GraphT) (n x : String) :
    lookupG (ensureKey g n) x = if x = n then some ((lookupG g n).getD []) else lookupG g x := by
  unfold ensureKey
  by_cases hs : (lookupG g n).isSome
  · obtain ⟨v, hv⟩ := Option.isSome_iff_exists.mp hs
    by_cases hx : x = n
    · subst hx; simp [hs, hv]
    · simp [hs, hx]
  · have hn : lookupG g n = none := Option.not_isSome_iff_eq_none.mp hs
    rw [hn]
    simp only [Option.isSome_none, Bool.false_eq_true, if_false, Option.getD_none]
    rw [lookupG_append]
    by_cases hx : x = n
    · subst hx
      rw [hn]
      simp [lookupG_single]
    · rw [lookupG_single, if_neg (Ne.symm hx), if_neg hx]
      cases lookupG g x <;> rfl

theorem setKey_lookup (g : GraphT) (n x : String) (v : List String) :
    lookupG (setKey g n v) x = if x = n then some v else lookupG g x := by
  induction g with
  | nil =>
    simp only [setKey, lookupG]
    by_cases hx : x = n
    · subst hx; simp
    · simp [Ne.symm hx, hx]
  | cons p rest ih =>
    obtain ⟨k, w⟩ := p
    by_cases hk : k = n
    · subst hk
      simp only [setKey, if_pos rfl, lookupG]
      by_cases hx : x = k
      · subst hx; simp
      · simp [Ne.symm hx, hx]
    · simp only [setKey, if_neg hk, lookupG, ih]
      by_cases hx : x = n
      · subst hx
        have hkx : ¬ (k = x) := hk
        simp [hkx]
      · simp [hx]

theorem buildLoop_nil (fetch : String → Option (List String)) (tg : Option GraphT) (maxDepth : Nat)
    (visited : List String) (graph : GraphT) (log warns : List String) :
    buildLoop fetch tg maxDepth [] visited graph log warns = ⟨graph, visited, log, warns⟩ := by
  rw [buildLoop]

theorem buildLoop_skip (fetch : String → Option (List String)) (tg : Option GraphT) (maxDepth : Nat)
    (current : String) (depth : Nat) (rest : List (String × Nat))
    (visited : List String) (graph : GraphT) (log warns : List String) (h : maxDepth ≤ depth) :
    buildLoop fetch tg maxDepth ((current, depth) :: rest) visited graph log warns =
      buildLoop fetch tg maxDepth rest visited graph log warns := by
  rw [buildLoop.eq_def]
  simp only [if_pos h]

theorem buildLoop_expand (fetch : String → Option (List String)) (tg : Option GraphT) (maxDepth : Nat)
    (current : String) (depth : Nat) (rest : List (String × Nat))
    (visited : List String) (graph : GraphT) (log warns : List String) (deps : List String)
    (h : ¬ maxDepth ≤ depth)
    (hf : sourceFetch fetch tg current = some deps) :
    buildLoop fetch tg maxDepth ((current, depth) :: rest) visited graph log warns =
      (let st := deps.foldl (depStep (depth + 1))
        ((lookupG (ensureKey graph current) current).getD [], visited, rest)
       buildLoop fetch tg maxDepth st.2.2 st.2.1 (setKey (ensureKey graph current) current st.1)
         (log ++ [current]) warns) := by
  rw [buildLoop.eq_def]
  simp only [if_neg h, hf]

theorem buildLoop_fail (fetch : String → Option (List String)) (tg : Option GraphT) (maxDepth : Nat)
    (current : String) (depth : Nat) (rest : List (String × Nat))
    (visited : List String) (graph : GraphT) (log warns : List String)
    (h : ¬ maxDepth ≤ depth)
    (hf : sourceFetch fetch tg current = none) :
    buildLoop fetch tg maxDepth ((current, depth) :: rest) visited graph log warns =
      buildLoop fetch tg maxDepth rest visited (ensureKey graph current)
        (log ++ [current]) (warns ++ [current]) := by
  rw [buildLoop.eq_def]
  simp only [if_neg h, hf]

theorem depStep_vis (depth1 : Nat) (cur vis : List String) (stk : List (String × Nat)) (dep : String) :
    (depStep depth1 (cur, vis, stk) dep).2.1 = if dep ∈ vis then vis else dep :: vis := by
  unfold depStep
  by_cases h : dep ∈ vis <;> simp [h]

theorem foldl_vis_mono (depth1 : Nat) (deps : List String) :
    ∀ (cur vis : List String) (stk : List (String × Nat)) (x : String), x ∈ vis →
      x ∈ (deps.foldl (depStep depth1) (cur, vis, stk)).2.1 := by
  induction deps with
  | nil => intro cur vis stk x hx; exact hx
  | cons d ds ih =>
    intro cur vis stk x hx
    simp only [List.foldl_cons]
    have h1 : x ∈ (depStep depth1 (cur, vis, stk) d).2.1 := by
      rw [depStep_vis]
      by_cases h : d ∈ vis
      · simpa [h] using hx
      · simp [h, hx]
    have h2 := ih (depStep depth1 (cur, vis, stk) d).1 (depStep depth1 (cur, vis, stk) d).2.1
      (depStep depth1 (cur, vis, stk) d).2.2 x h1
    simpa using h2

theorem foldl_stk_mem (depth1 : Nat) (deps : List String) :
    ∀ (cur vis : List String) (stk : List (String × Nat)) (e : String × Nat), e ∈ stk →
      e ∈ (deps.foldl (depStep depth1) (cur, vis, stk)).2.2 := by
  induction deps with
  | nil => intro cur vis stk e he; exact he
  | cons d ds ih =>
    intro cur vis stk e he
    simp only [List.foldl_cons]
    have h1 : e ∈ (depStep depth1 (cur, vis, stk) d).2.2 := by
      rw [depStep_stk]
      by_cases h : d ∈ vis
      · simpa [h] using he
      · simp [h, he]
    have h2 := ih (depStep depth1 (cur, vis, stk) d).1 (depStep depth1 (cur, vis, stk) d).2.1
      (depStep depth1 (cur, vis, stk) d).2.2 e h1
    simpa using h2

theorem foldl_psi (depth1 : Nat) (deps : List String) (x : String) :
    ∀ (cur vis : List String) (stk : List (String × Nat)),
      (((deps.foldl (depStep depth1) (cur, vis, stk)).2.2.map Prod.fst).count x +
        (if x ∈ (deps.foldl (depStep depth1) (cur, vis, stk)).2.1 then 0 else 1)) ≤
      ((stk.map Prod.fst).count x + (if x ∈ vis then 0 else 1)) := by
  induction deps with
  | nil => intro cur vis stk; exact le_refl _
  | cons d ds ih =>
    intro cur vis stk
    simp only [List.foldl_cons]
    have step : (((depStep depth1 (cur, vis, stk) d).2.2.map Prod.fst).count x +
        (if x ∈ (depStep depth1 (cur, vis, stk) d).2.1 then 0 else 1)) ≤
        ((stk.map Prod.fst).count x + (if x ∈ vis then 0 else 1)) := by
      rw [depStep_stk, depStep_vis]
      by_cases h : d ∈ vis
      · simp [h]
      · simp only [if_neg h, List.map_cons, List.count_cons, List.mem_cons]
        by_cases hx : x = d
        · subst hx
          simp [h]
        · have : ¬ (d = x) := fun hh => hx hh.symm
          simp [hx, this]
    have h2 := ih (depStep depth1 (cur, vis, stk) d).1 (depStep depth1 (cur, vis, stk) d).2.1
      (depStep depth1 (cur, vis, stk) d).2.2
    calc (((ds.foldl (depStep depth1) (depStep depth1 (cur, vis, stk) d)).2.2.map Prod.fst).count x +
          (if x ∈ (ds.foldl (depStep depth1) (depStep depth1 (cur, vis, stk) d)).2.1 then 0 else 1))
        ≤ (((depStep depth1 (cur, vis, stk) d).2.2.map Prod.fst).count x +
          (if x ∈ (depStep depth1 (cur, vis, stk) d).2.1 then 0 else 1)) := by
          simpa using h2
      _ ≤ _ := step

theorem buildLoop_keys_mono (fetch : String → Option (List String)) (tg : Option GraphT)
    (maxDepth : Nat) (stack : List (String × Nat)) (visited : List String) (graph : GraphT)
    (log warns : List String) (x : String) (hx : (lookupG graph x).isSome) :
    (lookupG (buildLoop fetch tg maxDepth stack visited graph log warns).graph x).isSome := by
  induction stack, visited, graph, log, warns using buildLoop.induct fetch tg maxDepth with
  | case1 visited graph log warns =>
    rw [buildLoop_nil]
    exact hx
  | case2 current depth rest visited graph log warns h ih =>
    rw [buildLoop_skip _ _ _ _ _ _ _ _ _ _ h]
    exact ih hx
  | case3 current depth rest visited graph log warns h graph1 deps heq st ih =>
    rw [buildLoop_expand _ _ _ _ _ _ _ _ _ _ _ h heq]
    apply ih
    rw [setKey_lookup]
    by_cases hc : x = current
    · simp [hc]
    · rw [if_neg hc, ensureKey_lookup, if_neg hc]
      exact hx
  | case4 current depth rest visited graph log warns h graph1 heq ih =>
    rw [buildLoop_fail _ _ _ _ _ _ _ _ _ _ h heq]
    apply ih
    rw [ensureKey_lookup]
    by_cases hc : x = current
    · simp [hc]
    · rw [if_neg hc]
      exact hx

theorem buildLoop_count (fetch : String → Option (List String)) (tg : Option GraphT)
    (maxDepth : Nat) (stack : List (String × Nat)) (visited : List String) (graph : GraphT)
    (log warns : List String) (x : String) (B : Nat)
    (hx : log.count x + ((stack.map Prod.fst).count x + (if x ∈ visited then 0 else 1)) ≤ B) :
    (buildLoop fetch tg maxDepth stack visited graph log warns).fetchLog.count x ≤ B := by
  induction stack, visited, graph, log, warns using buildLoop.induct fetch tg maxDepth with
  | case1 visited graph log warns =>
    rw [buildLoop_nil]
    dsimp only
    omega
  | case2 current depth rest visited graph log warns h ih =>
    rw [buildLoop_skip _ _ _ _ _ _ _ _ _ _ h]
    apply ih
    simp only [List.map_cons, List.count_cons] at hx
    omega
  | case3 current depth rest visited graph log warns h graph1 deps heq st ih =>
    rw [buildLoop_expand _ _ _ _ _ _ _ _ _ _ _ h heq]
    apply ih
    unfold_let st graph1
    have hpsi := foldl_psi (depth + 1) deps x ((lookupG (ensureKey graph current) current).getD [])
      visited rest
    have hcount : (log ++ [current]).count x = log.count x + (if current = x then 1 else 0) := by
      simp [List.count_append, List.count_singleton]
    simp only [List.map_cons, List.count_cons, beq_iff_eq] at hx hcount ⊢
    omega
  | case4 current depth rest visited graph log warns h graph1 heq ih =>
    rw [buildLoop_fail _ _ _ _ _ _ _ _ _ _ h heq]
    apply ih
    have hcount : (log ++ [current]).count x = log.count x + (if current = x then 1 else 0) := by
      simp [List.count_append, List.count_singleton]
    simp only [List.map_cons, List.count_cons, beq_iff_eq] at hx hcount ⊢
    omega

theorem buildLoop_log_keys (fetch : String → Option (List String)) (tg : Option GraphT)
    (maxDepth : Nat) (stack : List (String × Nat)) (visited : List String) (graph : GraphT)
    (log warns : List String)
    (hlog : ∀ y ∈ log, (lookupG graph y).isSome) :
    ∀ y ∈ (buildLoop fetch tg maxDepth stack visited graph log warns).fetchLog,
      (lookupG (buildLoop fetch tg maxDepth stack visited graph log warns).graph y).isSome := by
  induction stack, visited, graph, log, warns using buildLoop.induct fetch tg maxDepth with
  | case1 visited graph log warns =>
    rw [buildLoop_nil]
    exact hlog
  | case2 current depth rest visited graph log warns h ih =>
    rw [buildLoop_skip _ _ _ _ _ _ _ _ _ _ h]
    exact ih hlog
  | case3 current depth rest visited graph log warns h graph1 deps heq st ih =>
    rw [buildLoop_expand _ _ _ _ _ _ _ _ _ _ _ h heq]
    apply ih
    intro y hy
    rw [setKey_lookup]
    by_cases hc : y = current
    · simp [hc]
    · rw [if_neg hc, ensureKey_lookup, if_neg hc]
      rcases List.mem_append.mp hy with hy1 | hy2
      · exact hlog y hy1
      · exact absurd (List.mem_singleton.mp hy2) hc
  | case4 current depth rest visited graph log warns h graph1 heq ih =>
    rw [buildLoop_fail _ _ _ _ _ _ _ _ _ _ h heq]
    apply ih
    intro y hy
    rw [ensureKey_lookup]
    by_cases hc : y = current
    · simp [hc]
    · rw [if_neg hc]
      rcases List.mem_append.mp hy with hy1 | hy2
      · exact hlog y hy1
      · exact absurd (List.mem_singleton.mp hy2) hc

theorem buildLoop_fail_empty (fetch : String → Option (List String)) (tg : Option GraphT)
    (maxDepth : Nat) (stack : List (String × Nat)) (visited : List String) (graph : GraphT)
    (log warns : List String) (X : String) (hfX : sourceFetch fetch tg X = none)
    (hg : lookupG graph X = none ∨ lookupG graph X = some []) :
    lookupG (buildLoop fetch tg maxDepth stack visited graph log warns).graph X = none ∨
      lookupG (buildLoop fetch tg maxDepth stack visited graph log warns).graph X = some [] := by
  induction stack, visited, graph, log, warns using buildLoop.induct fetch tg maxDepth with
  | case1 visited graph log warns =>
    rw [buildLoop_nil]
    exact hg
  | case2 current depth rest visited graph log warns h ih =>
    rw [buildLoop_skip _ _ _ _ _ _ _ _ _ _ h]
    exact ih hg
  | case3 current depth rest visited graph log warns h graph1 deps heq st ih =>
    rw [buildLoop_expand _ _ _ _ _ _ _ _ _ _ _ h heq]
    apply ih
    by_cases hc : X = current
    · subst hc
      rw [hfX] at heq
      exact absurd heq (by simp)
    · rw [setKey_lookup, if_neg hc, ensureKey_lookup, if_neg hc]
      exact hg
  | case4 current depth rest visited graph log warns h graph1 heq ih =>
    rw [buildLoop_fail _ _ _ _ _ _ _ _ _ _ h heq]
    apply ih
    rw [ensureKey_lookup]
    by_cases hc : X = current
    · rw [if_pos hc]
      right
      rw [hc] at hg
      rcases hg with hg | hg <;> simp [hg]
    · rw [if_neg hc]
      exact hg

theorem buildLoop_fail_warn (fetch : String → Option (List String)) (tg : Option GraphT)
    (maxDepth : Nat) (stack : List (String × Nat)) (visited : List String) (graph : GraphT)
    (log warns : List String) (X : String) (hfX : sourceFetch fetch tg X = none)
    (hw : X ∈ log → X ∈ warns) :
    X ∈ (buildLoop fetch tg maxDepth stack visited graph log warns).fetchLog →
      X ∈ (buildLoop fetch tg maxDepth stack visited graph log warns).warnings := by
  induction stack, visited, graph, log, warns using buildLoop.induct fetch tg maxDepth with
  | case1 visited graph log warns =>
    rw [buildLoop_nil]
    exact hw
  | case2 current depth rest visited graph log warns h ih =>
    rw [buildLoop_skip _ _ _ _ _ _ _ _ _ _ h]
    exact ih hw
  | case3 current depth rest visited graph log warns h graph1 deps heq st ih =>
    rw [buildLoop_expand _ _ _ _ _ _ _ _ _ _ _ h heq]
    apply ih
    intro hX
    rcases List.mem_append.mp hX with hX1 | hX2
    · exact hw hX1
    · have hc : X = current := List.mem_singleton.mp hX2
      subst hc
      rw [hfX] at heq
      exact absurd heq (by simp)
  | case4 current depth rest visited graph log warns h graph1 heq ih =>
    rw [buildLoop_fail _ _ _ _ _ _ _ _ _ _ h heq]
    apply ih
    intro hX
    rcases List.mem_append.mp hX with hX1 | hX2
    · exact List.mem_append.mpr (Or.inl (hw hX1))
    · exact List.mem_append.mpr (Or.inr hX2)

theorem buildLoop_root_key (fetch : String → Option (List String)) (tg : Option GraphT)
    (maxDepth : Nat) (stack : List (String × Nat)) (visited : List String) (graph : GraphT)
    (log warns : List String) (root : String)
    (hr : (lookupG graph root).isSome ∨ ∃ d, (root, d) ∈ stack ∧ d < maxDepth) :
    (lookupG (buildLoop fetch tg maxDepth stack visited graph log warns).graph root).isSome := by
  induction stack, visited, graph, log, warns using buildLoop.induct fetch tg maxDepth with
  | case1 visited graph log warns =>
    rw [buildLoop_nil]
    rcases hr with hr | ⟨d, hd, _⟩
    · exact hr
    · exact absurd hd (List.not_mem_nil _)
  | case2 current depth rest visited graph log warns h ih =>
    rw [buildLoop_skip _ _ _ _ _ _ _ _ _ _ h]
    apply ih
    rcases hr with hr | ⟨d, hd, hdlt⟩
    · exact Or.inl hr
    · rcases List.mem_cons.mp hd with hd1 | hd2
      · have : d = depth := congrArg Prod.snd hd1
        omega
      · exact Or.inr ⟨d, hd2, hdlt⟩
  | case3 current depth rest visited graph log warns h graph1 deps heq st ih =>
    rw [buildLoop_expand _ _ _ _ _ _ _ _ _ _ _ h heq]
    apply ih
    unfold_let st graph1
    by_cases hc : root = current
    · left
      rw [setKey_lookup, if_pos hc]
      rfl
    · rcases hr with hr | ⟨d, hd, hdlt⟩
      · left
        rw [setKey_lookup, if_neg hc, ensureKey_lookup, if_neg hc]
        exact hr
      · rcases List.mem_cons.mp hd with hd1 | hd2
        · have : root = current := congrArg Prod.fst hd1
          exact absurd this hc
        · right
          exact ⟨d, foldl_stk_mem _ _ _ _ _ _ hd2, hdlt⟩
  | case4 current depth rest visited graph log warns h graph1 heq ih =>
    rw [buildLoop_fail _ _ _ _ _ _ _ _ _ _ h heq]
    apply ih
    by_cases hc : root = current
    · left
      rw [ensureKey_lookup, if_pos hc]
      rfl
    · rcases hr with hr | ⟨d, hd, hdlt⟩
      · left
        rw [ensureKey_lookup, if_neg hc]
        exact hr
      · rcases List.mem_cons.mp hd with hd1 | hd2
        · have : root = current := congrArg Prod.fst hd1
          exact absurd this hc
        · right
          exact ⟨d, hd2, hdlt⟩

/-- C4: for every root and every fetch capability (and any test fixture),
`build_dependency_graph` called with `max_depth = 0` returns exactly the
graph `{root: []}` — with empty visited set, no manifest-source invocation
and no warning — regardless of what the manifest source would return. -/
theorem build_maxdepth_zero (root : String) (fetch : String → Option (List String))
    (tg : Option GraphT) :
    build_dependency_graph root 0 fetch tg = ⟨[(root, [])], [], [], []⟩ := rfl

/-- C10 (amended support shown directly; claim is confirmed): for every
root, every `max_depth` and every fetch capability, the graph returned by
`build_dependency_graph` contains the root as a key; with `max_depth = 0`
it is exactly `{root: []}`. -/
theorem build_root_always_present (root : String) (maxDepth : Nat)
    (fetch : String → Option (List String)) (tg : Option GraphT) :
    (lookupG (build_dependency_graph root maxDepth fetch tg).graph root).isSome = true ∧
      (maxDepth = 0 → (build_dependency_graph root maxDepth fetch tg).graph = [(root, [])]) := by
  constructor
  · unfold build_dependency_graph
    by_cases h0 : maxDepth = 0
    · simp [h0, lookupG]
    · rw [if_neg h0]
      apply buildLoop_root_key
      exact Or.inr ⟨0, List.mem_cons_self _ _, by omega⟩
  · intro h0
    subst h0
    rfl

/-- C10 witness: the theorem applied at a concrete root, depth and failing
fetch capability. -/
theorem build_root_always_present_witness :
    (lookupG (build_dependency_graph "A" 0 (fun _ => none) none).graph "A").isSome = true ∧
      (build_dependency_graph "A" 0 (fun _ => none) none).graph = [("A", [])] :=
  ⟨(build_root_always_present "A" 0 (fun _ => none) none).1,
   (build_root_always_present "A" 0 (fun _ => none) none).2 rfl⟩

/-- C2 counterexample: with the fixture-free fetch capability
`A ↦ [A]` (the root depends on itself) and `max_depth = 2`, the builder
invokes the manifest source twice for `A`: the seed push of the root does
not mark it visited, so the root is re-discovered as a dependency of
itself, re-pushed, and re-expanded.  This refutes "at most once per
package identifier" and "a node that depends on itself is never
re-expanded". -/
theorem build_refetch_counterexample :
    (build_dependency_graph "A" 2 (fun s => if s = "A" then some ["A"] else none)
      none).fetchLog = ["A", "A"] ∧
    ¬ ((build_dependency_graph "A" 2 (fun s => if s = "A" then some ["A"] else none)
      none).fetchLog.count "A" ≤ 1) := by
  constructor
  · simp [build_dependency_graph, buildLoop, ensureKey, lookupG, setKey, depStep, sourceFetch,
      get_dependencies_test_mode]
  · have h : (build_dependency_graph "A" 2 (fun s => if s = "A" then some ["A"] else none)
        none).fetchLog = ["A", "A"] := by
      simp [build_dependency_graph, buildLoop, ensureKey, lookupG, setKey, depStep, sourceFetch,
        get_dependencies_test_mode]
    rw [h]
    decide

/-- C2 amended: a single call to `build_dependency_graph` invokes the
manifest source at most once per package identifier other than the root,
and at most twice for the root (the seed push does not add the root to the
visited set, so the root alone can be re-discovered and re-expanded
once). -/
theorem build_fetch_at_most_once_except_root (root : String) (maxDepth : Nat)
    (fetch : String → Option (List String)) (tg : Option GraphT) (x : String) :
    (build_dependency_graph root maxDepth fetch tg).fetchLog.count x ≤
      (if x = root then 2 else 1) := by
  unfold build_dependency_graph
  by_cases h0 : maxDepth = 0
  · simp [h0]
  · rw [if_neg h0]
    apply buildLoop_count
    by_cases hx : x = root
    · subst hx
      simp
    · have : ¬ (root = x) := fun h => hx h.symm
      simp [hx, this]

/-- C3 counterexample: with fetch capability `A ↦ [B]` and `max_depth = 1`,
the identifier `B` is pushed onto the work stack (it ends up in the
returned visited set) but, being popped at depth `1 ≥ max_depth`, it is
skipped before the `graph[current] = []` line runs, so it is not a key of
the returned graph.  This refutes "every identifier ever pushed is present
as a key". -/
theorem build_visited_not_key_counterexample :
    "B" ∈ (build_dependency_graph "A" 1 (fun s => if s = "A" then some ["B"] else none)
      none).visited ∧
    lookupG (build_dependency_graph "A" 1 (fun s => if s = "A" then some ["B"] else none)
      none).graph "B" = none := by
  constructor
  · simp [build_dependency_graph, buildLoop, ensureKey, lookupG, setKey, depStep, sourceFetch,
      get_dependencies_test_mode]
  · simp [build_dependency_graph, buildLoop, ensureKey, lookupG, setKey, depStep, sourceFetch,
      get_dependencies_test_mode]

theorem build_keys_of_log (root : String) (maxDepth : Nat)
    (fetch : String → Option (List String)) (tg : Option GraphT) (y : String)
    (hy : y ∈ (build_dependency_graph root maxDepth fetch tg).fetchLog) :
    (lookupG (build_dependency_graph root maxDepth fetch tg).graph y).isSome = true := by
  unfold build_dependency_graph at *
  by_cases h0 : maxDepth = 0
  · rw [h0] at hy
    simp at hy
  · rw [if_neg h0] at hy ⊢
    exact buildLoop_log_keys fetch tg maxDepth [(root, 0)] [] [] [] [] (by simp) y hy

/-- C3 amended: every identifier that is ever expanded — popped from the
work stack at depth `< max_depth`, which is exactly when the manifest
source is consulted for it — is present as a key of the returned
dependency graph; identifiers that were merely pushed but only ever popped
at depth `≥ max_depth` may be absent. -/
theorem build_expanded_nodes_are_keys (root : String) (maxDepth : Nat)
    (fetch : String → Option (List String)) (tg : Option GraphT) (y : String)
    (hy : y ∈ (build_dependency_graph root maxDepth fetch tg).fetchLog) :
    (lookupG (build_dependency_graph root maxDepth fetch tg).graph y).isSome = true :=
  build_keys_of_log root maxDepth fetch tg y hy

/-- C3 amended witness: in the concrete counterexample build, `A` was
expanded and is a key. -/
theorem build_expanded_nodes_are_keys_witness :
    "A" ∈ (build_dependency_graph "A" 1 (fun s => if s = "A" then some ["B"] else none)
      none).fetchLog ∧
    (lookupG (build_dependency_graph "A" 1 (fun s => if s = "A" then some ["B"] else none)
      none).graph "A").isSome = true := by
  have hmem : "A" ∈ (build_dependency_graph "A" 1
      (fun s => if s = "A" then some ["B"] else none) none).fetchLog := by
    simp [build_dependency_graph, buildLoop, ensureKey, lookupG, setKey, depStep, sourceFetch,
      get_dependencies_test_mode]
  exact ⟨hmem, build_expanded_nodes_are_keys "A" 1 _ none "A" hmem⟩

/-- C7: failure isolation.  If the manifest source fails for `X`
(`sourceFetch … X = none` models the raised exception), the build still
succeeds as a whole: every expanded identifier — before and after `X` —
is a key of the returned graph; and if `X` itself was expanded, the graph
records `X` with an empty dependency list and a warning was emitted for
`X`. -/
theorem build_fetch_failure_isolated (root : String) (maxDepth : Nat)
    (fetch : String → Option (List String)) (tg : Option GraphT) (X : String)
    (hfX : sourceFetch fetch tg X = none) :
    (∀ y ∈ (build_dependency_graph root maxDepth fetch tg).fetchLog,
      (lookupG (build_dependency_graph root maxDepth fetch tg).graph y).isSome = true) ∧
    (X ∈ (build_dependency_graph root maxDepth fetch tg).fetchLog →
      lookupG (build_dependency_graph root maxDepth fetch tg).graph X = some [] ∧
      X ∈ (build_dependency_graph root maxDepth fetch tg).warnings) := by
  refine ⟨fun y hy => build_keys_of_log root maxDepth fetch tg y hy, fun hX => ?_⟩
  unfold build_dependency_graph at *
  by_cases h0 : maxDepth = 0
  · rw [h0] at hX
    simp at hX
  · rw [if_neg h0] at hX ⊢
    have hempty := buildLoop_fail_empty fetch tg maxDepth [(root, 0)] [] [] [] [] X hfX
      (Or.inl rfl)
    have hkey := buildLoop_log_keys fetch tg maxDepth [(root, 0)] [] [] [] [] (by simp) X hX
    have hwarn := buildLoop_fail_warn fetch tg maxDepth [(root, 0)] [] [] [] [] X hfX
      (by simp) hX
    refine ⟨?_, hwarn⟩
    rcases hempty with hnone | hsome
    · rw [hnone] at hkey
      simp at hkey
    · exact hsome

/-- C7 witness: concrete build where fetching `B` fails — `A` and `C` are
keys, `B` is recorded with an empty list and warned about. -/
theorem build_fetch_failure_isolated_witness :
    sourceFetch (fun s => if s = "B" then none else some ["B", "C"]) none "B" = none ∧
    ("B" ∈ (build_dependency_graph "A" 3 (fun s => if s = "B" then none else some ["B", "C"])
        none).fetchLog ∧
      lookupG (build_dependency_graph "A" 3 (fun s => if s = "B" then none else some ["B", "C"])
        none).graph "B" = some [] ∧
      "B" ∈ (build_dependency_graph "A" 3 (fun s => if s = "B" then none else some ["B", "C"])
        none).warnings) := by
  have hf : sourceFetch (fun s => if s = "B" then none else some ["B", "C"]) none "B" = none := by
    simp [sourceFetch]
  have hmem : "B" ∈ (build_dependency_graph "A" 3
      (fun s => if s = "B" then none else some ["B", "C"]) none).fetchLog := by
    simp [build_dependency_graph, buildLoop, ensureKey, lookupG, setKey, depStep, sourceFetch,
      get_dependencies_test_mode]
  have h := (build_fetch_failure_isolated "A" 3 _ none "B" hf).2 hmem
  exact ⟨hf, hmem, h.1, h.2⟩

theorem setKey_forall (P : String → Prop) (g : GraphT) (k : String) (v : List String)
    (hg : ∀ p ∈ g, P p.1) (hk : P k) : ∀ p ∈ setKey g k v, P p.1 := by
  induction g with
  | nil =>
    intro p hp
    simp only [setKey, List.mem_singleton] at hp
    rw [hp]
    exact hk
  | cons q rest ih =>
    obtain ⟨k', w⟩ := q
    intro p hp
    by_cases hkk : k' = k
    · simp only [setKey, if_pos hkk, List.mem_cons] at hp
      rcases hp with hp | hp
      · rw [hp]; exact hk
      · exact hg p (List.mem_cons_of_mem _ hp)
    · simp only [setKey, if_neg hkk, List.mem_cons] at hp
      rcases hp with hp | hp
      · exact hg p (by rw [hp]; exact List.mem_cons_self _ _)
      · exact ih (fun q hq => hg q (List.mem_cons_of_mem _ hq)) p hp

theorem dictSet_forall (P : String → Prop) (g : GraphT) (k : String) (v : List String)
    (hg : ∀ p ∈ g, P p.1) (hk : P k) : ∀ p ∈ dictSet g k v, P p.1 := by
  unfold dictSet
  by_cases hs : (lookupG g k).isSome
  · rw [if_pos hs]
    exact setKey_forall P g k v hg hk
  · rw [if_neg hs]
    intro p hp
    rcases List.mem_append.mp hp with hp | hp
    · exact hg p hp
    · rw [List.mem_singleton.mp hp]
      exact hk

theorem parse_test_graph_keys_valid_aux (lines : List String) :
    ∀ (acc g : GraphT), (∀ p ∈ acc, validTestName p.1 = true) →
      parse_test_graph lines acc = .ok g → ∀ p ∈ g, validTestName p.1 = true := by
  induction lines with
  | nil =>
    intro acc g hacc hok
    simp only [parse_test_graph] at hok
    cases hok
    exact hacc
  | cons line rest ih =>
    intro acc g hacc hok
    simp only [parse_test_graph] at hok
    by_cases hskip : pyStrip line = "" || pyStartsWithHash (pyStrip line)
    · rw [if_pos hskip] at hok
      exact ih acc g hacc hok
    · rw [if_neg hskip] at hok
      cases hsplit : splitFirstColon (pyStrip line) with
      | none =>
        rw [hsplit] at hok
        cases hok
      | some pr =>
        obtain ⟨p, depsPart⟩ := pr
        rw [hsplit] at hok
        dsimp only at hok
        by_cases hval : validTestName (pyStrip p) = true
        · rw [if_pos hval] at hok
          exact ih _ g (dictSet_forall (fun s => validTestName s = true) acc (pyStrip p)
            (pySplitWs depsPart) hacc hval) hok
        · rw [if_neg hval] at hok
          cases hok

/-- C9 counterexample: the fixture line `"A: b"` loads successfully even
though the dependency token `b` is not an uppercase alphabetic name —
main.py line 110 records the right-hand tokens without any validation, so
the constrained token shape applies only to the left-hand package
names. -/
theorem parse_lowercase_dep_counterexample :
    parse_test_graph ["A: b"] [] = Except.ok [("A", ["b"])] ∧ validTestName "b" = false := by
  constructor
  · rfl
  · rfl

/-- C9 amended: in a successfully loaded fixture every left-hand package
name satisfies the constrained token shape (non-empty, `isupper`,
`isalpha`); a fixture whose package name violates the shape fails to
load.  Dependency tokens to the right of the colon are recorded
unvalidated. -/
theorem parse_test_graph_keys_valid (lines : List String) (g : GraphT)
    (hok : parse_test_graph lines [] = .ok g) : ∀ p ∈ g, validTestName p.1 = true :=
  parse_test_graph_keys_valid_aux lines [] g (by simp) hok

/-- C9 witness: the theorem applied to the concrete fixture `["A: b"]`,
whose single key `A` passes the shape test. -/
theorem parse_test_graph_keys_valid_witness :
    parse_test_graph ["A: b"] [] = Except.ok [("A", ["b"])] ∧
      validTestName (("A", ["b"]) : String × List String).1 = true :=
  ⟨rfl, parse_test_graph_keys_valid ["A: b"] [("A", ["b"])] rfl ("A", ["b"])
    (List.mem_singleton.mpr rfl)⟩

/-- C8 counterexample: running the test-mode main with the malformed
fixture line `"X"` (no colon) does exit with status 1 and a fatal
validation error, but standard output is not empty at that point: the
configuration echo (main.py lines 234-238) has already been printed before
the fixture is loaded.  This refutes "no partial output is printed to
standard output before the failure". -/
theorem main_prints_config_before_fixture_error :
    (mainTest "A" "g.txt" 1 true ["X"]).1 = 1 ∧
    (mainTest "A" "g.txt" 1 true ["X"]).2.1 ≠ [] ∧
    (mainTest "A" "g.txt" 1 true ["X"]).2.2 = ["Error: Invalid line in test graph: X"] := by
  refine ⟨rfl, ?_, rfl⟩
  have he : (mainTest "A" "g.txt" 1 true ["X"]).2.1 = configEcho "A" "g.txt" "test" 1 := rfl
  rw [he]
  simp [configEcho]

/-- C8 amended: when the fixture fails to load, the test-mode main exits
with status 1, reports `Error: <message>` on the error stream, and prints
exactly the configuration echo on standard output — no installation-order
or dependency-graph output. -/
theorem main_fixture_error_exits_one (package repo : String) (maxDepth : Nat)
    (lines : List String) (e : String)
    (herr : parse_test_graph lines [] = .error e) :
    mainTest package repo maxDepth true lines =
      (1, configEcho package repo "test" maxDepth, ["Error: " ++ e]) := by
  simp [mainTest, herr]

/-- C8 amended witness: the theorem applied at the concrete malformed
fixture `["X"]`. -/
theorem main_fixture_error_exits_one_witness :
    mainTest "A" "g.txt" 1 true ["X"] =
      (1, configEcho "A" "g.txt" "test" 1, ["Error: " ++ "Invalid line in test graph: X"]) :=
  main_fixture_error_exits_one "A" "g.txt" 1 ["X"] "Invalid line in test graph: X" rfl

theorem lookupG_mem {g : GraphT} {n : String} {v : List String} (h : lookupG g n = some v) :
    (n, v) ∈ g := by
  induction g with
  | nil => simp [lookupG] at h
  | cons p rest ih =>
    obtain ⟨k, w⟩ := p
    by_cases hk : k = n
    · subst hk
      simp only [lookupG, if_true, Option.some_inj, ite_self, if_pos] at h
      have hw : w = v := by
        by_cases hkk : (k = k) = True
        · simpa [lookupG] using h
        · simp at hkk
      subst hw
      exact List.mem_cons_self _ _
    · simp only [lookupG, if_neg hk] at h
      exact List.mem_cons_of_mem _ (ih h)

theorem mem_nodesOf_of_mem {g : GraphT} {p : String × List String} (hp : p ∈ g) :
    p.1 ∈ nodesOf g ∧ ∀ d ∈ p.2, d ∈ nodesOf g := by
  induction g with
  | nil => simp at hp
  | cons q rest ih =>
    rcases List.mem_cons.mp hp with hp | hp
    · subst hp
      constructor
      · simp [nodesOf]
      · intro d hd
        simp [nodesOf, hd]
    · have := ih hp
      constructor
      · simp only [nodesOf, List.foldr_cons, List.mem_cons, List.mem_append]
        have h1 := this.1
        simp only [nodesOf] at h1
        tauto
      · intro d hd
        have h2 := this.2 d hd
        simp only [nodesOf, List.foldr_cons, List.mem_cons, List.mem_append] at *
        tauto

theorem depsOf_mem_nodesOf {g : GraphT} {n d : String} (hd : d ∈ depsOf g n) :
    d ∈ nodesOf g := by
  unfold depsOf at hd
  cases h : lookupG g n with
  | none => rw [h] at hd; simp at hd
  | some v =>
    rw [h] at hd
    simp only [Option.getD_some] at hd
    exact (mem_nodesOf_of_mem (lookupG_mem h)).2 d hd

theorem key_mem_nodesOf {g : GraphT} {n : String} (h : (lookupG g n).isSome) :
    n ∈ nodesOf g := by
  obtain ⟨v, hv⟩ := Option.isSome_iff_exists.mp h
  exact (mem_nodesOf_of_mem (lookupG_mem hv)).1

theorem depsOf_length_le {g : GraphT} (n : String) : (depsOf g n).length ≤ maxDeps g := by
  unfold depsOf
  cases h : lookupG g n with
  | none => simp
  | some v =>
    simp only [Option.getD_some]
    have hm := lookupG_mem h
    clear h
    induction g with
    | nil => simp at hm
    | cons q rest ih =>
      rcases List.mem_cons.mp hm with hq | hq
      · subst hq
        simp [maxDeps]
      · have := ih hq
        simp only [maxDeps, List.foldr_cons] at *
        omega

theorem filter_length_le_of_imp {p q : String → Prop} [DecidablePred p] [DecidablePred q]
    (l : List String) (h : ∀ x, q x → p x) :
    (l.filter (fun x => q x)).length ≤ (l.filter (fun x => p x)).length := by
  induction l with
  | nil => simp
  | cons a l ih =>
    by_cases hq : q a
    · have hp : p a := h a hq
      simp only [List.filter_cons, decide_eq_true_eq]
      rw [if_pos hq, if_pos hp]
      simpa using ih
    · by_cases hp : p a
      · simp only [List.filter_cons, decide_eq_true_eq]
        rw [if_neg hq, if_pos hp]
        simp only [List.length_cons]
        omega
      · simp only [List.filter_cons, decide_eq_true_eq]
        rw [if_neg hq, if_neg hp]
        exact ih

theorem filter_length_lt_of_imp {p q : String → Prop} [DecidablePred p] [DecidablePred q]
    (l : List String) (h : ∀ x, q x → p x) (a : String) (ha : a ∈ l) (hpa : p a) (hqa : ¬ q a) :
    (l.filter (fun x => q x)).length < (l.filter (fun x => p x)).length := by
  induction l with
  | nil => simp at ha
  | cons b l ih =>
    rcases List.mem_cons.mp ha with hb | hb
    · subst hb
      simp only [List.filter_cons, decide_eq_true_eq]
      rw [if_neg hqa, if_pos hpa]
      simp only [List.length_cons]
      have := filter_length_le_of_imp l h
      omega
    · by_cases hq : q b
      · have hp : p b := h b hq
        simp only [List.filter_cons, decide_eq_true_eq]
        rw [if_pos hq, if_pos hp]
        simp only [List.length_cons]
        have := ih hb
        omega
      · by_cases hp : p b
        · simp only [List.filter_cons, decide_eq_true_eq]
          rw [if_neg hq, if_pos hp]
          simp only [List.length_cons]
          have := filter_length_le_of_imp l h
          have h2 := ih hb
          omega
        · simp only [List.filter_cons, decide_eq_true_eq]
          rw [if_neg hq, if_neg hp]
          exact ih hb

theorem mem_first_split {x : String} {l : List String} (h : x ∈ l) :
    ∃ pre post, l = pre ++ x :: post ∧ x ∉ pre := by
  induction l with
  | nil => simp at h
  | cons a l ih =>
    by_cases hax : a = x
    · subst hax
      exact ⟨[], l, rfl, List.not_mem_nil _⟩
    · rcases List.mem_cons.mp h with h1 | h1
      · exact absurd h1.symm hax
      · obtain ⟨pre, post, hl, hx⟩ := ih h1
        refine ⟨a :: pre, post, by rw [hl]; rfl, ?_⟩
        intro hc
        rcases List.mem_cons.mp hc with hc | hc
        · exact hax hc.symm
        · exact hx hc

/-- The universe of identifiers relevant to one resolver run: the root and
everything mentioned by the graph. -/
def univO (g : GraphT) (root : String) : List String :=
  (root :: nodesOf g).dedup

/-- Loop invariant for `orderLoop`, relating the stack (head = top of the
Python list), the visited and processed sets and the output accumulated so
far.  `pos_deps` states that an in-progress node's unvisited dependencies
sit above it on the stack; `pos_reach` states that everything above the
topmost occurrence of an in-progress node is reachable from it. -/
structure OInv (g : GraphT) (root : String)
    (stack visited processed ord : List String) : Prop where
  stack_univ : ∀ x ∈ stack, x ∈ univO g root
  vis_univ : ∀ x ∈ visited, x ∈ univO g root
  proc_vis : ∀ x ∈ processed, x ∈ visited
  pos_deps : ∀ pre n rest, stack = pre ++ n :: rest → n ∈ visited → n ∉ processed →
      ∀ d ∈ depsOf g n, d ∉ visited → d ∈ pre
  pos_reach : ∀ pre n rest, stack = pre ++ n :: rest → n ∈ visited → n ∉ processed → n ∉ pre →
      ∀ x ∈ pre, Reaches g n x
  vis_stack : ∀ x ∈ visited, x ∉ processed → x ∈ stack
  proc_closed : ∀ x ∈ processed, ∀ d ∈ depsOf g x, d ∈ visited
  root_there : root ∈ visited ∨ root ∈ stack
  vis_reach : ∀ x ∈ visited, Reaches g root x
  stack_reach : ∀ x ∈ stack, Reaches g root x
  ord_nodup : ord.Nodup
  ord_proc : ∀ x, x ∈ ord ↔ x ∈ processed
  ord_topo : ∀ T ∈ ord, ∀ d ∈ depsOf g T,
      (d ∈ ord ∧ ord.indexOf d < ord.indexOf T) ∨ Reaches g d T

/-- Termination measure for the resolver loop: unvisited universe
elements, weighted by the maximal possible stack growth of one visit, plus
the stack length. -/
def muO (g : GraphT) (root : String) (stack visited : List String) : Nat :=
  ((univO g root).filter (fun x => x ∉ visited)).length * (maxDeps g + 1) + stack.length

theorem OInv.step_processed {g : GraphT} {root node : String}
    {rest visited processed ord : List String}
    (inv : OInv g root (node :: rest) visited processed ord) (h : node ∈ processed) :
    OInv g root rest visited processed ord := by
  refine ⟨?_, inv.vis_univ, inv.proc_vis, ?_, ?_, ?_, inv.proc_closed, ?_, inv.vis_reach, ?_,
    inv.ord_nodup, inv.ord_proc, inv.ord_topo⟩
  · exact fun x hx => inv.stack_univ x (List.mem_cons_of_mem _ hx)
  · intro pre n r hr hn hnp d hd hdv
    have hsplit : node :: rest = (node :: pre) ++ n :: r := by rw [hr]; rfl
    have := inv.pos_deps (node :: pre) n r hsplit hn hnp d hd hdv
    rcases List.mem_cons.mp this with h1 | h1
    · subst h1
      exact absurd (inv.proc_vis d h) hdv
    · exact h1
  · intro pre n r hr hn hnp hnpre x hx
    have hsplit : node :: rest = (node :: pre) ++ n :: r := by rw [hr]; rfl
    have hne : n ≠ node := fun he => hnp (he ▸ h)
    have hnpre2 : n ∉ node :: pre := by
      intro hc
      rcases List.mem_cons.mp hc with hc | hc
      · exact hne hc
      · exact hnpre hc
    exact inv.pos_reach (node :: pre) n r hsplit hn hnp hnpre2 x (List.mem_cons_of_mem _ hx)
  · intro x hx hxp
    have := inv.vis_stack x hx hxp
    rcases List.mem_cons.mp this with h1 | h1
    · subst h1
      exact absurd h hxp
    · exact h1
  · rcases inv.root_there with h1 | h1
    · exact Or.inl h1
    · rcases List.mem_cons.mp h1 with h2 | h2
      · exact Or.inl (h2 ▸ inv.proc_vis node h)
      · exact Or.inr h2
  · exact fun x hx => inv.stack_reach x (List.mem_cons_of_mem _ hx)

theorem OInv.top_not_vis_of_pushes {g : GraphT} {root node : String}
    {rest visited processed ord : List String}
    (inv : OInv g root (node :: rest) visited processed ord) (hnp : node ∉ processed)
    (hne : (depsOf g node).filter (fun d => d ∉ visited.insert node) ≠ []) :
    node ∉ visited := by
  intro hv
  apply hne
  rw [List.filter_eq_nil_iff]
  intro d hd
  simp only [decide_eq_true_eq, Decidable.not_not]
  by_contra hdn
  simp only [Decidable.not_not] at hdn
  have hdv : d ∉ visited := fun hc => hdn (List.mem_insert_iff.mpr (Or.inr hc))
  have := inv.pos_deps [] node rest rfl hv hnp d hd hdv
  simp at this

theorem OInv.step_emit {g : GraphT} {root node : String}
    {rest visited processed ord : List String}
    (inv : OInv g root (node :: rest) visited processed ord) (hnp : node ∉ processed)
    (hpush : (depsOf g node).filter (fun d => d ∉ visited.insert node) = []) :
    OInv g root rest (visited.insert node) (processed.insert node) (ord ++ [node]) := by
  have hdeps : ∀ d ∈ depsOf g node, d ∈ visited.insert node := by
    intro d hd
    have := List.filter_eq_nil_iff.mp hpush d hd
    simp only [decide_eq_true_eq, Decidable.not_not] at this
    exact this
  have hnode_univ : node ∈ univO g root := inv.stack_univ node (List.mem_cons_self _ _)
  have hnode_ord : node ∉ ord := fun hc => hnp ((inv.ord_proc node).mp hc)
  refine ⟨?_, ?_, ?_, ?_, ?_, ?_, ?_, ?_, ?_, ?_, ?_, ?_, ?_⟩
  · exact fun x hx => inv.stack_univ x (List.mem_cons_of_mem _ hx)
  · intro x hx
    rcases List.mem_insert_iff.mp hx with h1 | h1
    · exact h1 ▸ hnode_univ
    · exact inv.vis_univ x h1
  · intro x hx
    rcases List.mem_insert_iff.mp hx with h1 | h1
    · exact List.mem_insert_iff.mpr (Or.inl h1)
    · exact List.mem_insert_iff.mpr (Or.inr (inv.proc_vis x h1))
  · intro pre n r hr hn hnp2 d hd hdv
    have hne : n ≠ node := fun he => hnp2 (List.mem_insert_iff.mpr (Or.inl he))
    have hnv : n ∈ visited := by
      rcases List.mem_insert_iff.mp hn with h1 | h1
      · exact absurd h1 hne
      · exact h1
    have hnp3 : n ∉ processed := fun hc => hnp2 (List.mem_insert_iff.mpr (Or.inr hc))
    have hsplit : node :: rest = (node :: pre) ++ n :: r := by rw [hr]; rfl
    have hdv2 : d ∉ visited := fun hc => hdv (List.mem_insert_iff.mpr (Or.inr hc))
    have := inv.pos_deps (node :: pre) n r hsplit hnv hnp3 d hd hdv2
    rcases List.mem_cons.mp this with h1 | h1
    · exact absurd (List.mem_insert_iff.mpr (Or.inl h1)) hdv
    · exact h1
  · intro pre n r hr hn hnp2 hnpre x hx
    have hne : n ≠ node := fun he => hnp2 (List.mem_insert_iff.mpr (Or.inl he))
    have hnv : n ∈ visited := by
      rcases List.mem_insert_iff.mp hn with h1 | h1
      · exact absurd h1 hne
      · exact h1
    have hnp3 : n ∉ processed := fun hc => hnp2 (List.mem_insert_iff.mpr (Or.inr hc))
    have hsplit : node :: rest = (node :: pre) ++ n :: r := by rw [hr]; rfl
    have hnpre2 : n ∉ node :: pre := by
      intro hc
      rcases List.mem_cons.mp hc with hc | hc
      · exact hne hc
      · exact hnpre hc
    exact inv.pos_reach (node :: pre) n r hsplit hnv hnp3 hnpre2 x (List.mem_cons_of_mem _ hx)
  · intro x hx hxp
    have hne : x ≠ node := fun he => hxp (List.mem_insert_iff.mpr (Or.inl he))
    have hxv : x ∈ visited := by
      rcases List.mem_insert_iff.mp hx with h1 | h1
      · exact absurd h1 hne
      · exact h1
    have hxp2 : x ∉ processed := fun hc => hxp (List.mem_insert_iff.mpr (Or.inr hc))
    have := inv.vis_stack x hxv hxp2
    rcases List.mem_cons.mp this with h1 | h1
    · exact absurd h1 hne
    · exact h1
  · intro x hx d hd
    rcases List.mem_insert_iff.mp hx with h1 | h1
    · subst h1
      exact hdeps d hd
    · exact List.mem_insert_iff.mpr (Or.inr (inv.proc_closed x h1 d hd))
  · rcases inv.root_there with h1 | h1
    · exact Or.inl (List.mem_insert_iff.mpr (Or.inr h1))
    · rcases List.mem_cons.mp h1 with h2 | h2
      · exact Or.inl (List.mem_insert_iff.mpr (Or.inl h2))
      · exact Or.inr h2
  · intro x hx
    rcases List.mem_insert_iff.mp hx with h1 | h1
    · exact h1 ▸ inv.stack_reach node (List.mem_cons_self _ _)
    · exact inv.vis_reach x h1
  · exact fun x hx => inv.stack_reach x (List.mem_cons_of_mem _ hx)
  · rw [List.nodup_append]
    exact ⟨inv.ord_nodup, List.nodup_singleton _, fun a ha hb =>
      (List.mem_singleton.mp hb ▸ hnode_ord) ha⟩
  · intro x
    rw [List.mem_append, List.mem_singleton, inv.ord_proc, List.mem_insert_iff]
    tauto
  · intro T hT d hd
    rcases List.mem_append.mp hT with hT1 | hT1
    · rcases inv.ord_topo T hT1 d hd with ⟨hdo, hlt⟩ | hr
      · left
        refine ⟨List.mem_append.mpr (Or.inl hdo), ?_⟩
        rw [List.indexOf_append_of_mem hdo, List.indexOf_append_of_mem hT1]
        exact hlt
      · exact Or.inr hr
    · have hTnode : T = node := List.mem_singleton.mp hT1
      subst hTnode
      have hdvis := hdeps d hd
      rcases List.mem_insert_iff.mp hdvis with h1 | h1
      · exact Or.inr (h1 ▸ Reaches.refl d)
      · by_cases hdp : d ∈ processed
        · left
          have hdo : d ∈ ord := (inv.ord_proc d).mpr hdp
          refine ⟨List.mem_append.mpr (Or.inl hdo), ?_⟩
          rw [List.indexOf_append_of_mem hdo, List.indexOf_append_of_not_mem hnode_ord]
          have h2 : List.indexOf d ord < ord.length := List.indexOf_lt_length.mpr hdo
          have h3 : List.indexOf T ([T] : List String) = 0 := List.indexOf_cons_self _ _
          omega
        · right
          by_cases hdT : d = T
          · exact hdT ▸ Reaches.refl d
          · have hds := inv.vis_stack d h1 hdp
            have h2 : d ∈ rest := by
              rcases List.mem_cons.mp hds with h2 | h2
              · exact absurd h2 hdT
              · exact h2
            obtain ⟨pre2, post2, hrest, hdpre⟩ := mem_first_split h2
            have hsplit : T :: rest = (T :: pre2) ++ d :: post2 := by rw [hrest]; rfl
            have hdpre2 : d ∉ T :: pre2 := by
              intro hc
              rcases List.mem_cons.mp hc with hc | hc
              · exact hdT hc
              · exact hdpre hc
            exact inv.pos_reach (T :: pre2) d post2 hsplit h1 hdp hdpre2 T
              (List.mem_cons_self _ _)

theorem OInv.step_push {g : GraphT} {root node : String}
    {rest visited processed ord : List String}
    (inv : OInv g root (node :: rest) visited processed ord) (hnp : node ∉ processed)
    (hne : (depsOf g node).filter (fun d => d ∉ visited.insert node) ≠ []) :
    OInv g root (((depsOf g node).filter (fun d => d ∉ visited.insert node)) ++ node :: rest)
      (visited.insert node) processed ord := by
  set P := (depsOf g node).filter (fun d => d ∉ visited.insert node) with hP
  have hnv : node ∉ visited := inv.top_not_vis_of_pushes hnp hne
  have hPdeps : ∀ x ∈ P, x ∈ depsOf g node := fun x hx => (List.mem_filter.mp hx).1
  have hPnv1 : ∀ x ∈ P, x ∉ visited.insert node := by
    intro x hx
    have := (List.mem_filter.mp hx).2
    simpa using this
  have hnode_univ : node ∈ univO g root := inv.stack_univ node (List.mem_cons_self _ _)
  have hnode_reach : Reaches g root node := inv.stack_reach node (List.mem_cons_self _ _)
  -- decomposition analysis for the new stack
  have hdecomp : ∀ pre n r, P ++ node :: rest = pre ++ n :: r →
      (n ∈ P) ∨ (pre = P ∧ n = node ∧ r = rest) ∨
      (∃ a2, pre = P ++ node :: a2 ∧ rest = a2 ++ n :: r) := by
    intro pre n r hr
    rcases List.append_eq_append_iff.mp hr with ⟨a1, hpre, hrest⟩ | ⟨c1, hPeq, hcons⟩
    · cases a1 with
      | nil =>
        simp only [List.append_nil] at hpre
        simp only [List.nil_append] at hrest
        have h1 := (List.cons.injEq _ _ _ _).mp hrest
        exact Or.inr (Or.inl ⟨hpre, h1.1.symm, h1.2.symm⟩)
      | cons a a2 =>
        have h1 := (List.cons.injEq _ _ _ _).mp hrest
        exact Or.inr (Or.inr ⟨a2, by rw [hpre, h1.1], h1.2⟩)
    · cases c1 with
      | nil =>
        simp only [List.append_nil] at hPeq
        simp only [List.nil_append] at hcons
        have h1 := (List.cons.injEq _ _ _ _).mp hcons
        exact Or.inr (Or.inl ⟨hPeq.symm, h1.1, h1.2⟩)
      | cons c c2 =>
        have h1 := (List.cons.injEq _ _ _ _).mp hcons
        left
        rw [hPeq, ← h1.1]
        exact List.mem_append.mpr (Or.inr (List.mem_cons_self _ _))
  refine ⟨?_, ?_, ?_, ?_, ?_, ?_, ?_, ?_, ?_, ?_, inv.ord_nodup, inv.ord_proc, inv.ord_topo⟩
  · intro x hx
    rcases List.mem_append.mp hx with h1 | h1
    · have hxd := hPdeps x h1
      have := depsOf_mem_nodesOf hxd
      unfold univO
      rw [List.mem_dedup]
      exact List.mem_cons_of_mem _ this
    · exact inv.stack_univ x h1
  · intro x hx
    rcases List.mem_insert_iff.mp hx with h1 | h1
    · exact h1 ▸ hnode_univ
    · exact inv.vis_univ x h1
  · exact fun x hx => List.mem_insert_iff.mpr (Or.inr (inv.proc_vis x hx))
  · intro pre n r hr hn hnp2 d hd hdv
    rcases hdecomp pre n r hr with h1 | ⟨hpre, hnn, hrr⟩ | ⟨a2, hpre, hrest⟩
    · exact absurd hn (hPnv1 n h1)
    · subst hnn
      subst hpre
      exact List.mem_filter.mpr ⟨hd, by simpa using hdv⟩
    · subst hpre
      by_cases hnT : n = node
      · subst hnT
        exact List.mem_append.mpr (Or.inl (List.mem_filter.mpr ⟨hd, by simpa using hdv⟩))
      · have hnvis : n ∈ visited := by
          rcases List.mem_insert_iff.mp hn with h2 | h2
          · exact absurd h2 hnT
          · exact h2
        have hsplit : node :: rest = (node :: a2) ++ n :: r := by rw [hrest]; rfl
        have hdv2 : d ∉ visited := fun hc => hdv (List.mem_insert_iff.mpr (Or.inr hc))
        have := inv.pos_deps (node :: a2) n r hsplit hnvis hnp2 d hd hdv2
        rcases List.mem_cons.mp this with h2 | h2
        · exact absurd (List.mem_insert_iff.mpr (Or.inl h2)) hdv
        · exact List.mem_append.mpr (Or.inr (List.mem_cons_of_mem _ h2))
  · intro pre n r hr hn hnp2 hnpre x hx
    rcases hdecomp pre n r hr with h1 | ⟨hpre, hnn, hrr⟩ | ⟨a2, hpre, hrest⟩
    · exact absurd hn (hPnv1 n h1)
    · subst hnn
      subst hpre
      exact reaches_of_edge (hPdeps x hx)
    · subst hpre
      by_cases hnT : n = node
      · subst hnT
        exact absurd (List.mem_append.mpr (Or.inr (List.mem_cons_self _ _))) hnpre
      · have hnvis : n ∈ visited := by
          rcases List.mem_insert_iff.mp hn with h2 | h2
          · exact absurd h2 hnT
          · exact h2
        have hsplit : node :: rest = (node :: a2) ++ n :: r := by rw [hrest]; rfl
        have hnpre2 : n ∉ node :: a2 := by
          intro hc
          rcases List.mem_cons.mp hc with hc | hc
          · exact hnT hc
          · exact hnpre (List.mem_append.mpr (Or.inr (List.mem_cons_of_mem _ hc)))
        have hreach := inv.pos_reach (node :: a2) n r hsplit hnvis hnp2 hnpre2
        rcases List.mem_append.mp hx with h2 | h2
        · have hrT : Reaches g n node := hreach node (List.mem_cons_self _ _)
          exact hrT.trans (reaches_of_edge (hPdeps x h2))
        · exact hreach x h2
  · intro x hx hxp
    rcases List.mem_insert_iff.mp hx with h1 | h1
    · exact h1 ▸ List.mem_append.mpr (Or.inr (List.mem_cons_self _ _))
    · have := inv.vis_stack x h1 hxp
      rcases List.mem_cons.mp this with h2 | h2
      · exact h2 ▸ List.mem_append.mpr (Or.inr (List.mem_cons_self _ _))
      · exact List.mem_append.mpr (Or.inr (List.mem_cons_of_mem _ h2))
  · intro x hx d hd
    exact List.mem_insert_iff.mpr (Or.inr (inv.proc_closed x hx d hd))
  · rcases inv.root_there with h1 | h1
    · exact Or.inl (List.mem_insert_iff.mpr (Or.inr h1))
    · rcases List.mem_cons.mp h1 with h2 | h2
      · exact Or.inr (h2 ▸ List.mem_append.mpr (Or.inr (List.mem_cons_self _ _)))
      · exact Or.inr (List.mem_append.mpr (Or.inr (List.mem_cons_of_mem _ h2)))
  · intro x hx
    rcases List.mem_insert_iff.mp hx with h1 | h1
    · exact h1 ▸ hnode_reach
    · exact inv.vis_reach x h1
  · intro x hx
    rcases List.mem_append.mp hx with h1 | h1
    · exact hnode_reach.trans (reaches_of_edge (hPdeps x h1))
    · exact inv.stack_reach x h1

theorem orderLoop_zero (g : GraphT) (stack visited processed ord : List String) :
    orderLoop g 0 stack visited processed ord = none := rfl

theorem orderLoop_nil (g : GraphT) (fuel : Nat) (visited processed ord : List String) :
    orderLoop g (fuel + 1) [] visited processed ord = some ord := rfl

theorem orderLoop_cons_processed (g : GraphT) (fuel : Nat)
    (node : String) (rest visited processed ord : List String) (h : node ∈ processed) :
    orderLoop g (fuel + 1) (node :: rest) visited processed ord =
      orderLoop g fuel rest visited processed ord := by
  simp [orderLoop, h]

theorem orderLoop_cons_emit (g : GraphT) (fuel : Nat)
    (node : String) (rest visited processed ord : List String) (h : node ∉ processed)
    (hp : (depsOf g node).filter (fun d => d ∉ visited.insert node) = []) :
    orderLoop g (fuel + 1) (node :: rest) visited processed ord =
      orderLoop g fuel rest (visited.insert node) (processed.insert node) (ord ++ [node]) := by
  simp only [orderLoop, if_neg h, hp]
  rfl

theorem orderLoop_cons_push (g : GraphT) (fuel : Nat)
    (node : String) (rest visited processed ord : List String) (h : node ∉ processed)
    (hp : (depsOf g node).filter (fun d => d ∉ visited.insert node) ≠ []) :
    orderLoop g (fuel + 1) (node :: rest) visited processed ord =
      orderLoop g fuel
        (((depsOf g node).filter (fun d => d ∉ visited.insert node)) ++ node :: rest)
        (visited.insert node) processed ord := by
  simp only [orderLoop, if_neg h]
  rw [if_neg]
  simp only [List.isEmpty_iff]
  exact hp

theorem muO_processed (g : GraphT) (root node : String) (rest visited : List String) :
    muO g root rest visited < muO g root (node :: rest) visited := by
  unfold muO
  simp only [List.length_cons]
  omega

theorem muO_emit (g : GraphT) (root node : String) (rest visited : List String) :
    muO g root rest (visited.insert node) < muO g root (node :: rest) visited := by
  unfold muO
  simp only [List.length_cons]
  have h := filter_length_le_of_imp (p := fun x => x ∉ visited)
    (q := fun x => x ∉ visited.insert node) (univO g root)
    (fun x hq hc => hq (List.mem_insert_iff.mpr (Or.inr hc)))
  dsimp only at h
  have hm := Nat.mul_le_mul_right (maxDeps g + 1) h
  omega

theorem muO_push (g : GraphT) (root node : String) (rest visited : List String)
    (hu : node ∈ univO g root) (hv : node ∉ visited) :
    muO g root (((depsOf g node).filter (fun d => d ∉ visited.insert node)) ++ node :: rest)
      (visited.insert node) < muO g root (node :: rest) visited := by
  unfold muO
  have hstrict := filter_length_lt_of_imp (p := fun x => x ∉ visited)
    (q := fun x => x ∉ visited.insert node) (univO g root)
    (fun x hq hc => hq (List.mem_insert_iff.mpr (Or.inr hc))) node hu hv
    (fun hc => hc (List.mem_insert_iff.mpr (Or.inl rfl)))
  have hlen : ((depsOf g node).filter (fun d => d ∉ visited.insert node)).length ≤
      maxDeps g := le_trans (List.length_filter_le _ _) (depsOf_length_le node)
  dsimp only at hstrict
  have hm : ((univO g root).filter (fun x => x ∉ visited.insert node)).length * (maxDeps g + 1)
      + (maxDeps g + 1) ≤
      ((univO g root).filter (fun x => x ∉ visited)).length * (maxDeps g + 1) := by
    rw [← Nat.succ_mul]
    exact Nat.mul_le_mul_right _ hstrict
  simp only [List.length_append, List.length_cons]
  omega

theorem orderLoop_run (g : GraphT) (root : String) :
    ∀ (fuel : Nat) (stack visited processed ord : List String),
      OInv g root stack visited processed ord →
      muO g root stack visited < fuel →
      ∃ o visited2 processed2, orderLoop g fuel stack visited processed ord = some o ∧
        OInv g root [] visited2 processed2 o := by
  intro fuel
  induction fuel with
  | zero =>
    intro stack vis proc ord _ hmu
    exact absurd hmu (Nat.not_lt_zero _)
  | succ fuel ih =>
    intro stack vis proc ord inv hmu
    cases stack with
    | nil => exact ⟨ord, vis, proc, orderLoop_nil g fuel vis proc ord, inv⟩
    | cons node rest =>
      by_cases hp : node ∈ proc
      · rw [orderLoop_cons_processed g fuel node rest vis proc ord hp]
        apply ih rest vis proc ord (inv.step_processed hp)
        have := muO_processed g root node rest vis
        omega
      · by_cases hpp : (depsOf g node).filter (fun d => d ∉ vis.insert node) = []
        · rw [orderLoop_cons_emit g fuel node rest vis proc ord hp hpp]
          apply ih _ _ _ _ (inv.step_emit hp hpp)
          have := muO_emit g root node rest vis
          omega
        · rw [orderLoop_cons_push g fuel node rest vis proc ord hp hpp]
          apply ih _ _ _ _ (inv.step_push hp hpp)
          have hu : node ∈ univO g root := inv.stack_univ node (List.mem_cons_self _ _)
          have hv : node ∉ vis := inv.top_not_vis_of_pushes hp hpp
          have := muO_push g root node rest vis hu hv
          omega

theorem OInv_initial (g : GraphT) (root : String) : OInv g root [root] [] [] [] := by
  refine ⟨?_, ?_, ?_, ?_, ?_, ?_, ?_, ?_, ?_, ?_, ?_, ?_, ?_⟩
  · intro x hx
    rw [List.mem_singleton.mp hx]
    unfold univO
    rw [List.mem_dedup]
    exact List.mem_cons_self _ _
  · intro x hx; simp at hx
  · intro x hx; simp at hx
  · intro pre n r hr hn
    simp at hn
  · intro pre n r hr hn
    simp at hn
  · intro x hx; simp at hx
  · intro x hx; simp at hx
  · exact Or.inr (List.mem_cons_self _ _)
  · intro x hx; simp at hx
  · intro x hx
    rw [List.mem_singleton.mp hx]
    exact Reaches.refl root
  · exact List.nodup_nil
  · intro x
    simp
  · intro T hT
    simp at hT

/-- The fuel `orderFuel` always suffices: the resolver loop reaches the
empty stack and returns `some` before running out. -/
theorem orderLoop_fuel_sufficient (g : GraphT) (root : String) :
    ∃ o visited2 processed2,
      orderLoop g (orderFuel g root) [root] [] [] [] = some o ∧
        OInv g root [] visited2 processed2 o := by
  apply orderLoop_run g root (orderFuel g root) [root] [] [] [] (OInv_initial g root)
  unfold muO orderFuel univO
  have h : ((root :: nodesOf g).dedup.filter (fun x => x ∉ ([] : List String))).length =
      (root :: nodesOf g).dedup.length := by
    have : ∀ x ∈ (root :: nodesOf g).dedup, x ∉ ([] : List String) := by
      intro x _ hc
      simp at hc
    rw [List.filter_eq_self.mpr]
    intro a ha
    simp
  rw [h]
  simp only [List.length_singleton]
  omega

theorem OInv_final {g : GraphT} {root : String} {visited processed o : List String}
    (inv : OInv g root [] visited processed o) :
    (∀ x, x ∈ o ↔ Reaches g root x) ∧ o.Nodup ∧
      (∀ T ∈ o, ∀ d ∈ depsOf g T,
        (d ∈ o ∧ o.indexOf d < o.indexOf T) ∨ Reaches g d T) := by
  have hvp : ∀ x ∈ visited, x ∈ processed := by
    intro x hx
    by_contra hxp
    exact List.not_mem_nil x (inv.vis_stack x hx hxp)
  have hroot : root ∈ visited := by
    rcases inv.root_there with h | h
    · exact h
    · exact absurd h (List.not_mem_nil _)
  have hclosure : ∀ a b, Reaches g a b → a ∈ visited → b ∈ visited := by
    intro a b hab
    induction hab with
    | refl => exact fun h => h
    | step hd _ ih =>
      intro ha
      exact ih (inv.proc_closed _ (hvp _ ha) _ hd)
  refine ⟨?_, inv.ord_nodup, inv.ord_topo⟩
  intro x
  constructor
  · intro hx
    exact inv.vis_reach x (inv.proc_vis x ((inv.ord_proc x).mp hx))
  · intro hx
    exact (inv.ord_proc x).mpr (hvp x (hclosure root x hx hroot))

/-- Summary specification of `get_installation_order`: the fuelled loop
returns it as `some`, its members are exactly the nodes reachable from the
root, it has no duplicates, and every member's listed dependencies either
appear earlier in it or reach back to the member (the cycle case). -/
theorem get_installation_order_spec (g : GraphT) (root : String) :
    orderLoop g (orderFuel g root) [root] [] [] [] =
        some (get_installation_order g root) ∧
      (∀ x, x ∈ get_installation_order g root ↔ Reaches g root x) ∧
      (get_installation_order g root).Nodup ∧
      (∀ T ∈ get_installation_order g root, ∀ d ∈ depsOf g T,
        (d ∈ get_installation_order g root ∧
          (get_installation_order g root).indexOf d <
            (get_installation_order g root).indexOf T) ∨ Reaches g d T) := by
  obtain ⟨o, v2, p2, hsome, hfin⟩ := orderLoop_fuel_sufficient g root
  have ho : get_installation_order g root = o := by
    unfold get_installation_order
    rw [hsome]
    rfl
  rw [ho]
  exact ⟨hsome, (OInv_final hfin).1, (OInv_final hfin).2.1, (OInv_final hfin).2.2⟩

/-- C1: for every dependency graph whose root-reachable part contains no
cycle (no reachable node reaches itself through at least one edge), and
for every root, `get_installation_order` places dependencies before
dependents: for every edge `A -> B` of the graph with `A` reachable from
the root, both appear in the output and the index of `B` is strictly less
than the index of `A`. -/
theorem installation_order_respects_edges (g : GraphT) (root A B : String)
    (hacyc : ∀ x, Reaches g root x → ¬ ReachesPlus g x x)
    (hA : Reaches g root A) (hB : B ∈ depsOf g A) :
    B ∈ get_installation_order g root ∧ A ∈ get_installation_order g root ∧
      (get_installation_order g root).indexOf B <
        (get_installation_order g root).indexOf A := by
  obtain ⟨-, hmem, -, htopo⟩ := get_installation_order_spec g root
  have hAo : A ∈ get_installation_order g root := (hmem A).mpr hA
  rcases htopo A hAo B hB with ⟨hBo, hlt⟩ | hreach
  · exact ⟨hBo, hAo, hlt⟩
  · exact absurd ⟨B, hB, hreach⟩ (hacyc A hA)

/-- C1 witness: the theorem applied to the concrete acyclic graph
`{A: [B], B: []}` with root `A` and edge `A -> B`. -/
theorem installation_order_respects_edges_witness :
    "B" ∈ get_installation_order [("A", ["B"]), ("B", [])] "A" ∧
    "A" ∈ get_installation_order [("A", ["B"]), ("B", [])] "A" ∧
    (get_installation_order [("A", ["B"]), ("B", [])] "A").indexOf "B" <
      (get_installation_order [("A", ["B"]), ("B", [])] "A").indexOf "A" := by
  apply installation_order_respects_edges [("A", ["B"]), ("B", [])] "A" "A" "B"
  · intro x hx hplus
    have hxc : x ∈ ["A", "B"] := by
      apply reaches_mem_of_closed (c := ["A", "B"]) (by decide) (by decide) hx
    obtain ⟨d, hd, hr⟩ := hplus
    have hx2 : x = "A" ∨ x = "B" := by
      rcases List.mem_cons.mp hxc with h | h
      · exact Or.inl h
      · exact Or.inr (List.mem_singleton.mp h)
    rcases hx2 with h | h
    · subst h
      have hdB : d = "B" := by
        have : d ∈ depsOf [("A", ["B"]), ("B", [])] "A" := hd
        have he : depsOf [("A", ["B"]), ("B", [])] "A" = ["B"] := by decide
        rw [he] at this
        exact List.mem_singleton.mp this
      subst hdB
      have : ("A" : String) ∈ ["B"] := by
        apply reaches_mem_of_closed (c := ["B"]) (by decide) (by decide) hr
      simp at this
    · subst h
      have he : depsOf [("A", ["B"]), ("B", [])] "B" = [] := by decide
      rw [he] at hd
      simp at hd
  · exact Reaches.refl "A"
  · decide

/-- C5: for every graph and root, the set of identifiers in the sequence
returned by `get_installation_order` is exactly the set of nodes reachable
from the root along the graph's edges, and each appears exactly once (the
sequence has no duplicates). -/
theorem installation_order_reachable_set (g : GraphT) (root : String) :
    (∀ x, x ∈ get_installation_order g root ↔ Reaches g root x) ∧
      (get_installation_order g root).Nodup :=
  ⟨(get_installation_order_spec g root).2.1, (get_installation_order_spec g root).2.2.1⟩

/-- C6: the resolver loop terminates on every finite graph — the fuel
`orderFuel` never runs out, so `orderLoop` returns `some` — and on the
cyclic two-node graph `{A: [B], B: [A]}` with root `A` it emits each of
`A` and `B` exactly once. -/
theorem resolver_terminates_on_cycles :
    (∀ (g : GraphT) (root : String),
      (orderLoop g (orderFuel g root) [root] [] [] []).isSome = true) ∧
    (get_installation_order [("A", ["B"]), ("B", ["A"])] "A").count "A" = 1 ∧
    (get_installation_order [("A", ["B"]), ("B", ["A"])] "A").count "B" = 1 := by
  refine ⟨fun g root => ?_, by decide, by decide⟩
  rw [(get_installation_order_spec g root).1]
  rfl
